import Mathlib

set_option maxHeartbeats 4000000
set_option maxRecDepth 100000

/-!
Shallow embedding of the license-normalization and dependency-filtering core of
`cargo-license` (`src/lib.rs`), together with proofs settling the specification
claims about it.

Conventions used throughout:
* Rust `String` / `&str` values are Lean `String`s; Rust's byte-lexicographic
  ordering on strings coincides with codepoint-lexicographic ordering on the
  underlying character lists (UTF-8 preserves codepoint order), so string
  comparison is embedded as lexicographic comparison of `String.data`.
* `spdx::LicenseReq` leaves are embedded by their canonical string form; the
  `spdx` crate orders and prints requirements by that form.
* Rust's stable `sort_by` is embedded as a stable insertion sort: the output of
  a stable sort is uniquely determined by the comparator and the input order.
-/

namespace CargoLicense

/-- Comparison of two characters by codepoint, as Rust compares bytes. -/
def charCmp (a b : Char) : Ordering :=
  if a < b then .lt else if b < a then .gt else .eq

/-- Lexicographic comparison of character lists: the embedding of Rust's
`str` ordering (byte-lexicographic; a strict prefix is smaller). -/
def charsCmp : List Char → List Char → Ordering
  | [], [] => .eq
  | _ :: _, [] => .gt
  | [], _ :: _ => .lt
  | a :: as', b :: bs' =>
    match charCmp a b with
    | .eq => charsCmp as' bs'
    | .lt => .lt
    | .gt => .gt

/-- Embedding of Rust's `String`/`LicenseReq` ordering. -/
def strCmp (a b : String) : Ordering :=
  charsCmp a.data b.data

/-- Stable insertion of `a` into a sorted list: `a` is placed before the first
element that is not strictly below it.  Used to embed `Vec::sort_by` (stable). -/
def insertSorted (lt : α → α → Bool) (a : α) : List α → List α
  | [] => [a]
  | b :: l => if lt b a then b :: insertSorted lt a l else a :: b :: l

/-- Stable insertion sort; extensionally equal to any stable sort by the same
comparator, in particular Rust's `sort_by`. -/
def sortBy' (lt : α → α → Bool) : List α → List α
  | [] => []
  | x :: xs => insertSorted lt x (sortBy' lt xs)

mutual
/-- `LicenseTree` from `src/lib.rs` (lines 15–20): a leaf license requirement
(embedded as its canonical string), or an `Or`/`And` node over children.
The child vector is the sibling inductive `LicenseTrees` so that all
operations are structurally recursive. -/
inductive LicenseTree where
  | License (req : String)
  | Or (nodes : LicenseTrees)
  | And (nodes : LicenseTrees)

/-- The list of children of a `LicenseTree` operator node. -/
inductive LicenseTrees where
  | nil
  | cons (t : LicenseTree) (ts : LicenseTrees)
end

/-- Convert a child vector to a plain list. -/
def LicenseTrees.toList : LicenseTrees → List LicenseTree
  | .nil => []
  | .cons t ts => t :: ts.toList

/-- Convert a plain list to a child vector. -/
def LicenseTrees.ofList : List LicenseTree → LicenseTrees
  | [] => .nil
  | t :: ts => .cons t (LicenseTrees.ofList ts)

mutual
/-- `LicenseTree::license_iter` (lines 95–102): the leaf sequence of a tree,
in left-to-right order. -/
def LicenseTree.license_iter : LicenseTree → List String
  | .License l => [l]
  | .Or ns => ns.leavesAll
  | .And ns => ns.leavesAll

/-- Leaves of all trees of a child vector, concatenated in order. -/
def LicenseTrees.leavesAll : LicenseTrees → List String
  | .nil => []
  | .cons t ts => t.license_iter ++ ts.leavesAll
end

/-- The comparison loop of `LicenseTree::cmp` (lines 40–54) on the two leaf
sequences: first difference decides; if one iterator is exhausted while the
other still yields (`(Some, None)`), the *longer* sequence is `Less`. -/
def reqSeqCmp : List String → List String → Ordering
  | [], [] => .eq
  | _ :: _, [] => .lt
  | [], _ :: _ => .gt
  | l :: ls, r :: rs =>
    match strCmp l r with
    | .eq => reqSeqCmp ls rs
    | .lt => .lt
    | .gt => .gt

/-- `LicenseTree::cmp` (lines 35–55): compare two subtrees by walking their
leaf iterators. -/
def LicenseTree.cmp (a b : LicenseTree) : Ordering :=
  reqSeqCmp a.license_iter b.license_iter

/-- `a < b` in the `LicenseTree` ordering, as a boolean. -/
def treeLtB (a b : LicenseTree) : Bool :=
  match LicenseTree.cmp a b with
  | .lt => true
  | _ => false

/-- `a > b` in the `LicenseTree` ordering, as a boolean (the `left > right`
test of the stack builder in `normalize`, lines 176 and 191). -/
def treeGtB (a b : LicenseTree) : Bool :=
  match LicenseTree.cmp a b with
  | .gt => true
  | _ => false

/-- Is this node an `Or` node? (the `retain_mut` test, line 66). -/
def LicenseTree.isOr : LicenseTree → Bool
  | .Or _ => true
  | _ => false

/-- Is this node an `And` node? (the `retain_mut` test, line 82). -/
def LicenseTree.isAnd : LicenseTree → Bool
  | .And _ => true
  | _ => false

/-- Children of an `Or` node, `[]` otherwise (what `retain_mut` appends to
`acc` at line 67). -/
def LicenseTree.orChildren : LicenseTree → List LicenseTree
  | .Or ns => ns.toList
  | _ => []

/-- Children of an `And` node, `[]` otherwise (line 83). -/
def LicenseTree.andChildren : LicenseTree → List LicenseTree
  | .And ns => ns.toList
  | _ => []

mutual
/-- `LicenseTree::normalize` (lines 57–93): recursively normalize children;
for an `Or` (resp. `And`) node, keep non-`Or` (resp. non-`And`) children in
order, append the spliced children of nested same-operator nodes, and stably
sort the result by `cmp`.  There is no deduplication step. -/
def LicenseTree.normalize : LicenseTree → LicenseTree
  | .License l => .License l
  | .Or ns =>
    let ms := (ns.normalizeAll).toList
    .Or (LicenseTrees.ofList (sortBy' treeLtB
      (ms.filter (fun t => !t.isOr) ++ ms.flatMap LicenseTree.orChildren)))
  | .And ns =>
    let ms := (ns.normalizeAll).toList
    .And (LicenseTrees.ofList (sortBy' treeLtB
      (ms.filter (fun t => !t.isAnd) ++ ms.flatMap LicenseTree.andChildren)))

/-- Normalize every tree of a child vector (the `for v in nodes.iter_mut()`
loops at lines 62–64 and 78–80). -/
def LicenseTrees.normalizeAll : LicenseTrees → LicenseTrees
  | .nil => .nil
  | .cons t ts => .cons t.normalize ts.normalizeAll
end

mutual
/-- `LicenseTree::serialize_inner` (lines 110–148): leaves print their
requirement; operator nodes join their children with `" OR "`/`" AND "`,
parenthesized when the node has more than one child and is not the top-level
node (`is_first` is `false` only for the top-level call). -/
def LicenseTree.serialize_inner : LicenseTree → Bool → String
  | .License l, _ => l
  | .Or v, is_first =>
    let body := LicenseTrees.serializeSep " OR " v
    if v.toList.length != 1 && is_first then "(" ++ body ++ ")" else body
  | .And v, is_first =>
    let body := LicenseTrees.serializeSep " AND " v
    if v.toList.length != 1 && is_first then "(" ++ body ++ ")" else body

/-- Serialize the children of an operator node, separated by `sep`
(the peekable loop of `serialize_inner`); children are serialized with
`is_first = true`. -/
def LicenseTrees.serializeSep (sep : String) : LicenseTrees → String
  | .nil => ""
  | .cons t .nil => t.serialize_inner true
  | .cons t ts => t.serialize_inner true ++ sep ++ LicenseTrees.serializeSep sep ts
end

/-- `LicenseTree::serialize` (lines 104–108): serialize with `is_first = false`
at the top level. -/
def LicenseTree.serialize (t : LicenseTree) : String :=
  t.serialize_inner false

/-- One element of the postfix iteration of a parsed SPDX expression
(`spdx::expression::ExprNode`): a requirement (embedded by its canonical
string) or an `OR`/`AND` operator. -/
inductive ExprNode where
  | req (r : String)
  | orOp
  | andOp
deriving DecidableEq, Repr

/-- The stack loop of `normalize` (lines 162–198): fold the postfix sequence,
pushing leaves; an operator pops `left` then `right`, swaps them when
`left > right`, and pushes the two-child node `[left, right]`.  `none` embeds
the early `return license_string.into()` on stack underflow. -/
def runOps : List ExprNode → List LicenseTree → Option (List LicenseTree)
  | [], stack => some stack
  | .req r :: rest, stack => runOps rest (.License r :: stack)
  | .orOp :: rest, stack =>
    match stack with
    | left :: right :: stack' =>
      let pair := if treeGtB left right then (right, left) else (left, right)
      runOps rest (.Or (.cons pair.1 (.cons pair.2 .nil)) :: stack')
    | _ => none
  | .andOp :: rest, stack =>
    match stack with
    | left :: right :: stack' =>
      let pair := if treeGtB left right then (right, left) else (left, right)
      runOps rest (.And (.cons pair.1 (.cons pair.2 .nil)) :: stack')
    | _ => none

/-- A token of a license expression string. -/
inductive Tok where
  | idT (s : String)
  | lpar
  | rpar
  | orT
  | andT
  | withT
deriving DecidableEq, Repr

/-- Modelled from the spec: characters admissible in an SPDX-style
identifier token (§4.1: identifiers, also unknown ones, are opaque words). -/
def isIdChar (c : Char) : Bool :=
  c.isAlphanum || c = '-' || c = '.' || c = '+' || c = ':'

/-- Classify a finished word as keyword or identifier.  Lower-case operator
spellings are accepted, standing in for the lexical fix-ups of
`spdx::Expression::canonicalize` (spec §4.2 step 1). -/
def wordTok (w : List Char) : Tok :=
  let s := String.mk w
  if s = "OR" || s = "or" then .orT
  else if s = "AND" || s = "and" then .andT
  else if s = "WITH" || s = "with" then .withT
  else .idT s

/-- Modelled from the spec: the tokenizer of the license-expression grammar
(§4.1).  Whitespace separates tokens; parentheses are single-character
tokens; `/` is the legacy `OR` separator; any other non-identifier character
makes the string unparseable. -/
def tokenize : List Char → List Char → List Tok → Option (List Tok)
  | [], cur, acc =>
    some (acc ++ (if cur.isEmpty then [] else [wordTok cur.reverse]))
  | c :: cs, cur, acc =>
    let flush := if cur.isEmpty then acc else acc ++ [wordTok cur.reverse]
    if c = ' ' || c = '\t' then tokenize cs [] flush
    else if c = '(' then tokenize cs [] (flush ++ [.lpar])
    else if c = ')' then tokenize cs [] (flush ++ [.rpar])
    else if c = '/' then tokenize cs [] (flush ++ [.orT])
    else if isIdChar c then tokenize cs (c :: cur) acc
    else none

mutual
/-- Modelled from the spec: the `OR` level of the grammar (§4.1), lowest
precedence, left-associative; emits postfix operator nodes. -/
def parseOrLevel : Nat → List Tok → Option (List ExprNode × List Tok)
  | 0, _ => none
  | fuel + 1, toks => do
    let (lhs, rest) ← parseAndLevel fuel toks
    parseOrRest fuel lhs rest

/-- Remaining `OR`-separated operands after the first. -/
def parseOrRest : Nat → List ExprNode → List Tok → Option (List ExprNode × List Tok)
  | 0, _, _ => none
  | fuel + 1, acc, .orT :: rest => do
    let (rhs, rest') ← parseAndLevel fuel rest
    parseOrRest fuel (acc ++ rhs ++ [.orOp]) rest'
  | _ + 1, acc, rest => some (acc, rest)

/-- Modelled from the spec: the `AND` level of the grammar (§4.1), binding
tighter than `OR`, left-associative. -/
def parseAndLevel : Nat → List Tok → Option (List ExprNode × List Tok)
  | 0, _ => none
  | fuel + 1, toks => do
    let (lhs, rest) ← parsePrimary fuel toks
    parseAndRest fuel lhs rest

/-- Remaining `AND`-separated operands after the first. -/
def parseAndRest : Nat → List ExprNode → List Tok → Option (List ExprNode × List Tok)
  | 0, _, _ => none
  | fuel + 1, acc, .andT :: rest => do
    let (rhs, rest') ← parsePrimary fuel rest
    parseAndRest fuel (acc ++ rhs ++ [.andOp]) rest'
  | _ + 1, acc, rest => some (acc, rest)

/-- Modelled from the spec: a primary operand (§4.1): a requirement, a
requirement `WITH` an exception (one leaf whose canonical form joins the two
words), or a parenthesized expression. -/
def parsePrimary : Nat → List Tok → Option (List ExprNode × List Tok)
  | 0, _ => none
  | _ + 1, .idT a :: .withT :: .idT e :: rest =>
    some ([.req (a ++ " WITH " ++ e)], rest)
  | _ + 1, .idT a :: rest => some ([.req a], rest)
  | fuel + 1, .lpar :: rest => do
    let (e, rest') ← parseOrLevel fuel rest
    match rest' with
    | .rpar :: rest'' => some (e, rest'')
    | _ => none
  | _ + 1, _ => none
end

/-- Modelled from the spec: the whole front end that `normalize` applies
before its stack loop — `spdx::Expression::canonicalize` followed by
`spdx::Expression::parse_mode(.., LAX)` (§4.1, §4.2 steps 1–2).  That code
lives in the external `spdx` crate, not in this repository; the model
follows the grammar of §4.1 (with `/` as legacy `OR`) and yields the postfix
node sequence of `Expression::iter()`. -/
def spdxParseModel (s : String) : Option (List ExprNode) := do
  let toks ← tokenize s.data [] []
  if toks.isEmpty then none
  else
    let (e, rest) ← parseOrLevel (2 * toks.length + 2) toks
    if rest.isEmpty then some e else none

/-- `normalize` (lines 152–206), parameterized by the combined
`spdx::Expression::canonicalize` + `parse_mode(LAX)` front end, which yields
the postfix node sequence of the parsed expression or `none` on failure.
On parse failure, stack underflow, or a final stack not holding exactly one
tree, the original string is returned unchanged; otherwise the tree is
normalized and serialized. -/
def normalize (parse : String → Option (List ExprNode)) (license_string : String) : String :=
  match parse license_string with
  | none => license_string
  | some ops =>
    match runOps ops [] with
    | some [tree] => tree.normalize.serialize
    | _ => license_string

/-- `normalize` applied with the modelled SPDX front end: the string-level
normalization function of the library. -/
def normalizeStr (s : String) : String :=
  normalize spdxParseModel s

/-! ## Dependency graph model (`cargo_metadata` input structures)

The `cargo_metadata` crate hands `get_dependencies_from_cargo_lock` a
fully-materialized `Metadata` value; the structures below embed exactly the
fields the library reads.  `PackageId` is the opaque unique identifier. -/

/-- Opaque unique package identifier (`cargo_metadata::PackageId`). -/
abbrev PackageId := String

/-- `cargo_metadata::DependencyKind`. -/
inductive DependencyKind where
  | normal
  | development
  | build
deriving DecidableEq, Repr

/-- `cargo_metadata::DepKindInfo` (only the `kind` field is read). -/
structure DepKindInfo where
  kind : DependencyKind
deriving DecidableEq, Repr

/-- `cargo_metadata::NodeDep`: one resolved edge to package `pkg`, tagged with
the kinds in which the dependency occurs (possibly empty on old metadata). -/
structure NodeDep where
  pkg : PackageId
  dep_kinds : List DepKindInfo
deriving DecidableEq, Repr

/-- `cargo_metadata::Node`: a resolved package and its outgoing edges. -/
structure Node where
  id : PackageId
  deps : List NodeDep
deriving DecidableEq, Repr

/-- `cargo_metadata::Resolve`: the resolved dependency graph, with an optional
designated root. -/
structure Resolve where
  nodes : List Node
  root : Option PackageId
deriving DecidableEq, Repr

/-- `cargo_metadata::Target` (only `name` and `crate_types` are read). -/
structure Target where
  name : String
  crate_types : List String
deriving DecidableEq, Repr

/-- A declared dependency of a package (`cargo_metadata::Dependency`; only the
`name` field is read). -/
structure PackageDep where
  name : String
deriving DecidableEq, Repr

/-- `semver::Version`, embedded as the numeric triple; comparison is
lexicographic on (major, minor, patch).  (Pre-release/build metadata are not
read by the library and are omitted.) -/
structure Version where
  major : Nat
  minor : Nat
  patch : Nat
deriving DecidableEq, Repr

/-- `cargo_metadata::Package`, restricted to the fields the library reads. -/
structure Package where
  id : PackageId
  name : String
  version : Version
  authors : List String
  repository : Option String
  license : Option String
  license_file : Option String
  description : Option String
  targets : List Target
  dependencies : List PackageDep
deriving DecidableEq, Repr

/-- `cargo_metadata::Metadata`, restricted to the fields the library reads.
`resolve.nodes` is keyed by unique package ids (a `cargo` invariant); the
association-list lookups below rely on that uniqueness the same way the
`HashMap` in the source does. -/
structure Metadata where
  packages : List Package
  workspace_members : List PackageId
  resolve : Option Resolve
deriving DecidableEq, Repr

/-- `GetDependenciesOpt` (lines 364–370). -/
structure GetDependenciesOpt where
  avoid_dev_deps : Bool
  avoid_build_deps : Bool
  avoid_proc_macros : Bool
  direct_deps_only : Bool
  root_only : Bool
deriving DecidableEq, Repr

/-- `cargo_metadata::Metadata::root_package`: the package whose id is
`resolve.root`, when a single root is designated. -/
def Metadata.root_package (m : Metadata) : Option Package :=
  match m.resolve with
  | none => none
  | some res =>
    match res.root with
    | none => none
    | some r => m.packages.find? (fun p => p.id == r)

/-- `cargo_metadata::Metadata::workspace_packages`: the packages that are
workspace members. -/
def Metadata.workspace_packages (m : Metadata) : List Package :=
  m.packages.filter (fun p => m.workspace_members.contains p.id)

/-- The root set used by `get_node_name_filter` (lines 228–232): the
designated root package if singular, else all workspace member packages. -/
def roots_list (m : Metadata) : List Package :=
  match m.root_package with
  | some root => [root]
  | none => m.workspace_packages

/-- `get_proc_macro_node_names` (lines 208–223): when `avoid_proc_macros` is
set, collect — for every package owning a target whose `crate_types` contain
`"proc-macro"` — that target's name together with the names of all of the
package's declared dependencies (of every kind).  The `HashSet` is embedded
as a list used only through membership and emptiness. -/
def get_proc_macro_node_names (m : Metadata) (opt : GetDependenciesOpt) : List String :=
  if opt.avoid_proc_macros then
    m.packages.flatMap (fun p =>
      p.targets.flatMap (fun t =>
        if t.crate_types.contains "proc-macro" then
          t.name :: p.dependencies.map (fun d => d.name)
        else []))
  else []

/-- `get_node_name_filter` (lines 225–250): with `root_only`, the root
packages' names; otherwise with `direct_deps_only`, the roots' names plus the
names of their declared dependencies; otherwise empty. -/
def get_node_name_filter (m : Metadata) (opt : GetDependenciesOpt) : List String :=
  if opt.root_only then (roots_list m).map (fun p => p.name)
  else if opt.direct_deps_only then
    (roots_list m).flatMap (fun p => p.name :: p.dependencies.map (fun d => d.name))
  else []

/-- `missing_dep_kinds` (lines 397–400): does any resolved edge of the graph
carry an empty `dep_kinds` set? -/
def missing_dep_kinds (res : Resolve) : Bool :=
  res.nodes.any (fun n => n.deps.any (fun d => d.dep_kinds.isEmpty))

/-- The edge filter of the `neighbors` closure (lines 412–419): an edge is
followed when kind data is missing anywhere in the graph, or when it carries
`Normal`, or `Development` unless `avoid_dev_deps`, or `Build` unless
`avoid_build_deps`. -/
def edge_allowed (opt : GetDependenciesOpt) (missing : Bool) (d : NodeDep) : Bool :=
  missing ||
    d.dep_kinds.any (fun ki =>
      ki.kind == DependencyKind.normal ||
        (!opt.avoid_dev_deps && ki.kind == DependencyKind.development) ||
        (!opt.avoid_build_deps && ki.kind == DependencyKind.build))

/-- The `neighbors` closure (lines 409–421): look up the node's edges
(`deps[package_id]` panics — `none` — when the id has no node), filter by
`edge_allowed`, and project the target ids. -/
def neighbors (nodes : List Node) (opt : GetDependenciesOpt) (missing : Bool)
    (id : PackageId) : Option (List PackageId) :=
  match nodes.find? (fun n => n.id == id) with
  | none => none
  | some n => some ((n.deps.filter (edge_allowed opt missing)).map (fun d => d.pkg))

/-- Outcome of the traversal loop: the visited set, a panic (`HashMap`
indexing with an unknown id), or fuel exhaustion (`spin` — proven unreachable
for the fuel bound used by the library embedding). -/
inductive LoopRes where
  | ok (visited : List PackageId)
  | panicked (msg : String)
  | spin
deriving DecidableEq, Repr

/-- The `while let Some(package_id) = stack.pop()` loop (lines 429–433),
with the `HashSet` of visited ids embedded as a list (`connected.insert`
succeeds exactly when the id is not yet present) and the `Vec` stack as a
list whose head is the top.  `stack.extend(neighbors(..))` pushes the
neighbor list so that its last element is popped first. -/
def traverseLoop (nodes : List Node) (opt : GetDependenciesOpt) (missing : Bool) :
    Nat → List PackageId → List PackageId → LoopRes
  | 0, _, _ => .spin
  | _ + 1, visited, [] => .ok visited
  | fuel + 1, visited, id :: stack =>
    if visited.contains id then traverseLoop nodes opt missing fuel visited stack
    else
      match neighbors nodes opt missing id with
      | none => .panicked "no entry found for key"
      | some ns => traverseLoop nodes opt missing fuel (id :: visited) (ns.reverse ++ stack)

/-- Total number of edges hanging off not-yet-visited nodes: the decreasing
part of the loop measure. -/
def unvisitedSum (nodes : List Node) (visited : List PackageId) : Nat :=
  ((nodes.filter (fun n => !visited.contains n.id)).map (fun n => n.deps.length)).sum

/-- Fuel sufficient for the traversal to drain its stack: every iteration
pops one entry, and entries are pushed at most once per node. -/
def traverseFuel (nodes : List Node) (stack : List PackageId) : Nat :=
  stack.length + unvisitedSum nodes [] + 1

/-- `DependencyDetails` (lines 252–261). -/
structure DependencyDetails where
  name : String
  version : Version
  authors : Option String
  repository : Option String
  license : Option String
  license_file : Option String
  description : Option String
deriving DecidableEq, Repr

/-- The Unicode `White_Space` code points: what Rust's `char::is_whitespace`
(used by `str::trim`) recognizes. -/
def rustIsWhitespace (c : Char) : Bool :=
  c.toNat ∈ [0x09, 0x0A, 0x0B, 0x0C, 0x0D, 0x20, 0x85, 0xA0, 0x1680,
    0x2000, 0x2001, 0x2002, 0x2003, 0x2004, 0x2005, 0x2006, 0x2007, 0x2008,
    0x2009, 0x200A, 0x2028, 0x2029, 0x202F, 0x205F, 0x3000]

/-- Rust `str::trim`: remove leading and trailing whitespace. -/
def rustTrim (s : String) : String :=
  String.mk (((s.data.dropWhile rustIsWhitespace).reverse.dropWhile rustIsWhitespace).reverse)

/-- Rust `str::replace('\n', " ")`: each newline becomes a single space. -/
def replaceNewlines (s : String) : String :=
  String.mk (s.data.map (fun c => if c = '\n' then ' ' else c))

/-- `DependencyDetails::new` (lines 263–287): project a package to its output
record; authors joined with `"|"` when non-empty (`None` otherwise), license
normalized, description trimmed with newlines replaced by spaces. -/
def DependencyDetails.new (package : Package) : DependencyDetails :=
  { name := package.name
    version := package.version
    authors :=
      if package.authors.isEmpty then none
      else some (String.intercalate "|" package.authors)
    repository := package.repository
    license := package.license.map (fun s => normalizeStr s)
    license_file := package.license_file
    description := package.description.map (fun s => replaceNewlines (rustTrim s)) }

/-- Comparison of `Option String` as Rust derives it: `None < Some _`. -/
def optStrCmp : Option String → Option String → Ordering
  | none, none => .eq
  | none, some _ => .lt
  | some _, none => .gt
  | some a, some b => strCmp a b

/-- `semver::Version` comparison on the embedded numeric triple. -/
def verCmp (a b : Version) : Ordering :=
  (compare a.major b.major).then ((compare a.minor b.minor).then (compare a.patch b.patch))

/-- The derived `Ord` of `DependencyDetails`: lexicographic over the fields in
declaration order. -/
def detailsCmp (a b : DependencyDetails) : Ordering :=
  (strCmp a.name b.name).then
    ((verCmp a.version b.version).then
      ((optStrCmp a.authors b.authors).then
        ((optStrCmp a.repository b.repository).then
          ((optStrCmp a.license b.license).then
            ((optStrCmp a.license_file b.license_file).then
              (optStrCmp a.description b.description))))))

/-- Strict `<` on `DependencyDetails`. -/
def detailsLtB (a b : DependencyDetails) : Bool :=
  match detailsCmp a b with
  | .lt => true
  | _ => false

/-- The combined name-keyed post-filters of `get_dependencies_from_cargo_lock`
(lines 441–442): the direct-deps/root-only allow-list (pass when it is empty
or contains the package's name) and the proc-macro exclusion set (drop when
it contains the package's name). -/
def nameFilters (m : Metadata) (opt : GetDependenciesOpt) (p : Package) : Bool :=
  ((get_node_name_filter m opt).isEmpty || (get_node_name_filter m opt).contains p.name) &&
    !(get_proc_macro_node_names m opt).contains p.name

/-- Result of `get_dependencies_from_cargo_lock`: the detail records, an
`Err` propagated to the caller, or a panic (process abort). -/
inductive RunRes where
  | ok (deps : List DependencyDetails)
  | err (msg : String)
  | panicked (msg : String)
deriving DecidableEq, Repr

/-- `get_dependencies_from_cargo_lock` (lines 379–447), with the already
executed `Metadata` as input (the `metadata_command.exec()?` step is the
excluded external metadata acquisition).  A missing `resolve` hits
`.expect("missing `resolve`")` — a panic, not an `Err`.  The traversal runs
for every flag combination; reachable packages are then filtered by the
name-keyed allow-list and proc-macro exclusions, projected, and sorted
(`sort_unstable` over the derived total order). -/
def get_dependencies_from_cargo_lock (metadata : Metadata) (opt : GetDependenciesOpt) :
    RunRes :=
  match metadata.resolve with
  | none => .panicked "missing `resolve`"
  | some resolve =>
    let missing := missing_dep_kinds resolve
    let stack :=
      match resolve.root with
      | some root => [root]
      | none => metadata.workspace_members
    match traverseLoop resolve.nodes opt missing (traverseFuel resolve.nodes stack) [] stack with
    | .spin => .panicked "fuel exhausted"
    | .panicked msg => .panicked msg
    | .ok connected =>
      .ok (sortBy' detailsLtB
        (((metadata.packages.filter (fun p =>
            connected.contains p.id && nameFilters metadata opt p)).map DependencyDetails.new)))

end CargoLicense

namespace CargoLicense

/-! ## Basic comparison lemmas -/

/-- A character compares equal to itself. -/
lemma charCmp_self (a : Char) : charCmp a a = .eq := by
  simp [charCmp, lt_irrefl]

/-- A character list compares equal to itself. -/
lemma charsCmp_self (l : List Char) : charsCmp l l = .eq := by
  induction l with
  | nil => rfl
  | cons a l ih => simp [charsCmp, charCmp_self, ih]

/-- A string compares equal to itself. -/
lemma strCmp_self (a : String) : strCmp a a = .eq := by
  simp [strCmp, charsCmp_self]

/-- The leaf-sequence comparison on a sequence versus a proper extension of
it: when the left iterator is exhausted first, the loop returns `Greater`
(the `(None, Some(_))` arm), so the shorter sequence is the *greater* one. -/
lemma reqSeqCmp_append (p rest : List String) (h : rest ≠ []) :
    reqSeqCmp p (p ++ rest) = .gt := by
  induction p with
  | nil =>
    cases rest with
    | nil => exact absurd rfl h
    | cons r rs => rfl
  | cons x xs ih => simp [reqSeqCmp, strCmp_self, ih]

end CargoLicense

namespace CargoLicense

/-- C2 counterexample: the leaves of `Apache-2.0` are a strict prefix of the
leaves of `Apache-2.0 OR MIT`, yet the single-leaf subtree does **not**
compare as smaller — `cmp` returns `Greater` for it, so it sorts last. -/
theorem cmp_strict_prefix_not_lt :
    (LicenseTree.License "Apache-2.0").license_iter.isPrefixOf
        (LicenseTree.Or (.cons (.License "Apache-2.0")
          (.cons (.License "MIT") .nil))).license_iter = true ∧
      (LicenseTree.License "Apache-2.0").license_iter ≠
        (LicenseTree.Or (.cons (.License "Apache-2.0")
          (.cons (.License "MIT") .nil))).license_iter ∧
      LicenseTree.cmp (LicenseTree.License "Apache-2.0")
        (LicenseTree.Or (.cons (.License "Apache-2.0")
          (.cons (.License "MIT") .nil))) ≠ Ordering.lt := by
  refine ⟨by decide, by decide, by decide⟩

/-- C2 (amended): in the ordering used to sort an operator node's children,
whenever one subtree's leaf sequence is a *strict prefix* of the other's, the
subtree with **fewer** leaves compares as `Greater` and therefore sorts
*last* (the `(Some, None) => Less` / `(None, Some) => Greater` arms of the
comparison loop favor the longer sequence). -/
theorem cmp_strict_prefix_gt (t u : LicenseTree)
    (hpre : t.license_iter.isPrefixOf u.license_iter = true)
    (hne : t.license_iter ≠ u.license_iter) :
    LicenseTree.cmp t u = Ordering.gt := by
  obtain ⟨rest, hr⟩ := List.isPrefixOf_iff_prefix.mp hpre
  have hrest : rest ≠ [] := by
    rintro rfl
    exact hne (by simpa using hr)
  unfold LicenseTree.cmp
  rw [← hr]
  exact reqSeqCmp_append _ _ hrest

/-- Witness for C2 (amended) at the counterexample pair. -/
theorem cmp_strict_prefix_gt_witness :
    LicenseTree.cmp (LicenseTree.License "Apache-2.0")
        (LicenseTree.Or (.cons (.License "Apache-2.0")
          (.cons (.License "MIT") .nil))) = Ordering.gt :=
  cmp_strict_prefix_gt _ _ (by decide) (by decide)

/-- C3: `normalize` is total, and on any input whose front-end parse fails it
returns the original string unchanged — the `let ... else return
license_string.into()` fallback of lines 155–160. -/
theorem normalize_parse_failure_id (parse : String → Option (List ExprNode))
    (s : String) (h : parse s = none) : normalize parse s = s := by
  unfold normalize
  rw [h]

/-- Witness for C3: the unparseable string of spec §8 scenario 6 is returned
byte-for-byte by `normalizeStr`. -/
theorem normalize_parse_failure_id_witness :
    normalize spdxParseModel "???not-a-license???" = "???not-a-license???" :=
  normalize_parse_failure_id spdxParseModel _ (by decide)

end CargoLicense

namespace CargoLicense

/-- C1 counterexample: normalization does **not** deduplicate repeated
requirements — `normalize("MIT OR MIT")` differs from `normalize("MIT")`.
The tree normalizer (lines 57–93) only flattens and sorts; it has no
dedup step. -/
theorem normalize_mit_or_mit_ne :
    normalizeStr "MIT OR MIT" ≠ normalizeStr "MIT" := by decide

/-- C1 (amended): after sorting, identical children are kept (merely made
adjacent), so repeated requirements survive normalization verbatim:
`normalize("MIT OR MIT") = "MIT OR MIT"` while `normalize("MIT") = "MIT"`. -/
theorem normalize_keeps_duplicates :
    normalizeStr "MIT OR MIT" = "MIT OR MIT" ∧ normalizeStr "MIT" = "MIT" := by
  constructor
  · decide
  · decide

/-- C4: `normalize` is **not** idempotent.  The stack builder (lines
167–196) pops `left` (the right operand) then `right` (the left operand) and
swaps them only when `left > right` strictly, so two `cmp`-equal but distinct
subtrees are *reversed* by every pass; the subsequent stable sort keeps the
reversed order.  On the already-normalized string below, each application of
`normalize` flips the two `AND` groups (both have leaf sequence
`Apache-2.0, MIT, Zlib`), producing a 2-cycle instead of a fixpoint. -/
theorem normalize_not_idempotent :
    normalizeStr (normalizeStr
        "(Apache-2.0 AND (MIT OR Zlib)) OR ((Apache-2.0 OR MIT) AND Zlib)") ≠
      normalizeStr
        "(Apache-2.0 AND (MIT OR Zlib)) OR ((Apache-2.0 OR MIT) AND Zlib)" := by
  decide

end CargoLicense

namespace CargoLicense

/-- C6 counterexample: on metadata lacking the resolved-dependency structure,
`get_dependencies_from_cargo_lock` does not return an error result — it
panics (the `.expect("missing `resolve`")` at line 389). -/
theorem missing_resolve_panics_cex :
    get_dependencies_from_cargo_lock
        ⟨[⟨"foo 1", "foo", ⟨1, 0, 0⟩, [], none, none, none, none, [], []⟩],
          ["foo 1"], none⟩
        ⟨false, false, false, false, false⟩ =
      RunRes.panicked "missing `resolve`" := by
  decide

/-- C6 (amended): when the input metadata lacks the resolved-dependency
structure, `get_dependencies_from_cargo_lock` unconditionally panics with
the message `missing `resolve`` (a process abort, not an `Err` result) and
performs no partial recovery. -/
theorem missing_resolve_panics (m : Metadata) (opt : GetDependenciesOpt)
    (h : m.resolve = none) :
    get_dependencies_from_cargo_lock m opt = RunRes.panicked "missing `resolve`" := by
  unfold get_dependencies_from_cargo_lock
  rw [h]

/-- Witness for C6 (amended) at a concrete metadata value. -/
theorem missing_resolve_panics_witness :
    get_dependencies_from_cargo_lock ⟨[], [], none⟩
        ⟨false, false, false, false, false⟩ =
      RunRes.panicked "missing `resolve`" :=
  missing_resolve_panics _ _ rfl

/-- C8: if any edge anywhere in the resolved graph has an empty
dependency-kind set, the `missing_dep_kinds` flag disables kind-based
filtering globally — the `neighbors` closure follows **every** edge of every
node, whatever `avoid_dev_deps`/`avoid_build_deps` say and whatever kind
tags the individual edge carries. -/
theorem missing_kinds_disable_filtering (res : Resolve) (opt : GetDependenciesOpt)
    (id : PackageId) (n : Node)
    (hmiss : missing_dep_kinds res = true)
    (hfind : res.nodes.find? (fun x => x.id == id) = some n) :
    neighbors res.nodes opt (missing_dep_kinds res) id =
      some (n.deps.map (fun d => d.pkg)) := by
  have hall : n.deps.filter (edge_allowed opt true) = n.deps := by
    simp [edge_allowed]
  simp [neighbors, hfind, hmiss, hall]

/-- Witness for C8: a two-node graph where one edge has no kind data and the
other is a pure `Development` edge; with `avoid_dev_deps` set, the dev edge
is still followed. -/
theorem missing_kinds_disable_filtering_witness :
    neighbors [⟨"a", [⟨"b", []⟩, ⟨"c", [⟨DependencyKind.development⟩]⟩]⟩]
        ⟨true, true, false, false, false⟩
        (missing_dep_kinds ⟨[⟨"a", [⟨"b", []⟩, ⟨"c", [⟨DependencyKind.development⟩]⟩]⟩], none⟩)
        "a" =
      some ["b", "c"] :=
  missing_kinds_disable_filtering
    ⟨[⟨"a", [⟨"b", []⟩, ⟨"c", [⟨DependencyKind.development⟩]⟩]⟩], none⟩
    ⟨true, true, false, false, false⟩ "a"
    ⟨"a", [⟨"b", []⟩, ⟨"c", [⟨DependencyKind.development⟩]⟩]⟩
    (by decide) (by decide)

end CargoLicense

namespace CargoLicense

/-- C9: the proc-macro exclusion and the direct-deps/root-only allow-list are
keyed by package *name*, not by unique package id: two packages with the same
name receive the same verdict from these two filters.  Moreover, for every
package owning a proc-macro target, the exclusion set contains that target's
name together with the names of **all** of the package's declared
dependencies, of every kind. -/
theorem filters_name_keyed :
    (∀ (m : Metadata) (opt : GetDependenciesOpt) (p q : Package),
      p.name = q.name → nameFilters m opt p = nameFilters m opt q) ∧
    (∀ (m : Metadata) (opt : GetDependenciesOpt) (p : Package) (t : Target),
      opt.avoid_proc_macros = true → p ∈ m.packages → t ∈ p.targets →
      t.crate_types.contains "proc-macro" = true →
      t.name ∈ get_proc_macro_node_names m opt ∧
        ∀ d ∈ p.dependencies, d.name ∈ get_proc_macro_node_names m opt) := by
  constructor
  · intro m opt p q h
    simp only [nameFilters, h]
  · intro m opt p t hopt hp ht hcrate
    have base : ∀ x, x ∈ t.name :: p.dependencies.map (fun d => d.name) →
        x ∈ get_proc_macro_node_names m opt := by
      intro x hx
      unfold get_proc_macro_node_names
      rw [if_pos hopt]
      refine List.mem_flatMap.mpr ⟨p, hp, List.mem_flatMap.mpr ⟨t, ht, ?_⟩⟩
      rw [if_pos hcrate]
      exact hx
    exact ⟨base _ (List.mem_cons_self _ _), fun d hd =>
      base _ (List.mem_cons_of_mem _ (List.mem_map.mpr ⟨d, hd, rfl⟩))⟩

/-- Witness for C9: two same-named packages get the same filter verdict, and
the proc-macro package's target name and declared dependency name are both
excluded. -/
theorem filters_name_keyed_witness :
    nameFilters ⟨[], [], none⟩ ⟨false, false, false, false, false⟩
        ⟨"a 1", "foo", ⟨1, 0, 0⟩, [], none, none, none, none, [], []⟩ =
      nameFilters ⟨[], [], none⟩ ⟨false, false, false, false, false⟩
        ⟨"a 2", "foo", ⟨2, 0, 0⟩, [], none, none, none, none, [], []⟩ ∧
    "m_target" ∈ get_proc_macro_node_names
        ⟨[⟨"m 1", "m", ⟨1, 0, 0⟩, [], none, none, none, none,
          [⟨"m_target", ["proc-macro"]⟩], [⟨"dep"⟩]⟩], [], none⟩
        ⟨false, false, true, false, false⟩ ∧
    "dep" ∈ get_proc_macro_node_names
        ⟨[⟨"m 1", "m", ⟨1, 0, 0⟩, [], none, none, none, none,
          [⟨"m_target", ["proc-macro"]⟩], [⟨"dep"⟩]⟩], [], none⟩
        ⟨false, false, true, false, false⟩ := by
  refine ⟨filters_name_keyed.1 _ _ _ _ rfl, ?_, ?_⟩
  · exact (filters_name_keyed.2 _ _
      ⟨"m 1", "m", ⟨1, 0, 0⟩, [], none, none, none, none,
        [⟨"m_target", ["proc-macro"]⟩], [⟨"dep"⟩]⟩
      ⟨"m_target", ["proc-macro"]⟩ rfl (by decide) (by decide) (by decide)).1
  · exact (filters_name_keyed.2 _ _
      ⟨"m 1", "m", ⟨1, 0, 0⟩, [], none, none, none, none,
        [⟨"m_target", ["proc-macro"]⟩], [⟨"dep"⟩]⟩
      ⟨"m_target", ["proc-macro"]⟩ rfl (by decide) (by decide) (by decide)).2
      ⟨"dep"⟩ (by decide)

/-- C10: in the projected record, `authors` is `None` exactly when the
package's author list is empty and otherwise joins the authors with `"|"`;
`description`, when present, is the package description trimmed of
surrounding whitespace with every newline replaced by a single space. -/
theorem details_authors_description (p : Package) :
    ((DependencyDetails.new p).authors = none ↔ p.authors = []) ∧
    (p.authors ≠ [] →
      (DependencyDetails.new p).authors = some (String.intercalate "|" p.authors)) ∧
    ((DependencyDetails.new p).description = none ↔ p.description = none) ∧
    (∀ d, p.description = some d →
      (DependencyDetails.new p).description = some (replaceNewlines (rustTrim d))) := by
  refine ⟨?_, ?_, ?_, ?_⟩
  · cases h : p.authors <;> simp [DependencyDetails.new, h]
  · intro h
    cases hh : p.authors with
    | nil => exact absurd hh h
    | cons a l => simp [DependencyDetails.new, hh]
  · cases h : p.description <;> simp [DependencyDetails.new, h]
  · intro d h
    simp [DependencyDetails.new, h]

/-- Witness for C10 at a concrete package with two authors and a
whitespace-padded, multi-line description. -/
theorem details_authors_description_witness :
    (DependencyDetails.new ⟨"p 1", "p", ⟨1, 0, 0⟩, ["Ann", "Bob"], none, none, none,
        some "  hi\nthere ", [], []⟩).authors = some "Ann|Bob" ∧
    (DependencyDetails.new ⟨"p 1", "p", ⟨1, 0, 0⟩, ["Ann", "Bob"], none, none, none,
        some "  hi\nthere ", [], []⟩).description = some "hi there" := by
  constructor
  · rw [(details_authors_description _).2.1 (by decide)]
    decide
  · rw [(details_authors_description _).2.2.2 "  hi\nthere " rfl]
    decide

end CargoLicense

namespace CargoLicense

/-- Weakening the filter predicate can only shrink the summed edge counts. -/
lemma sum_filter_mono (ns : List Node) (p q : Node → Bool)
    (hpq : ∀ n, p n = true → q n = true) :
    ((ns.filter p).map (fun n => n.deps.length)).sum ≤
      ((ns.filter q).map (fun n => n.deps.length)).sum := by
  induction ns with
  | nil => simp
  | cons n l ih =>
    rw [List.filter_cons, List.filter_cons]
    by_cases hp : p n = true
    · rw [if_pos hp, if_pos (hpq n hp)]
      simp only [List.map_cons, List.sum_cons]
      exact Nat.add_le_add_left ih _
    · rw [if_neg hp]
      by_cases hq : q n = true
      · rw [if_pos hq]
        simp only [List.map_cons, List.sum_cons]
        exact le_trans ih (Nat.le_add_left _ _)
      · rw [if_neg hq]
        exact ih

/-- Strengthening the filter by excluding the found element removes at least
that element's edge count from the summed total. -/
lemma sum_filter_find_insert (ns : List Node) (pr p q : Node → Bool)
    (hpq : ∀ x, p x = true → q x = true)
    (n : Node) (hfind : ns.find? pr = some n)
    (hqn : q n = true) (hpn : p n = false) :
    n.deps.length + ((ns.filter p).map (fun x => x.deps.length)).sum ≤
      ((ns.filter q).map (fun x => x.deps.length)).sum := by
  induction ns with
  | nil => simp at hfind
  | cons m ms ih =>
    rw [List.find?_cons] at hfind
    by_cases hm : pr m = true
    · have hmn : m = n := by
        rw [hm] at hfind
        simpa using hfind
      subst hmn
      rw [List.filter_cons, List.filter_cons, if_neg (by rw [hpn]; simp), if_pos hqn]
      simp only [List.map_cons, List.sum_cons]
      exact Nat.add_le_add_left (sum_filter_mono ms p q hpq) _
    · have hm' : pr m = false := by simpa using hm
      simp only [hm'] at hfind
      rw [List.filter_cons, List.filter_cons]
      by_cases hp : p m = true
      · rw [if_pos hp, if_pos (hpq m hp)]
        simp only [List.map_cons, List.sum_cons]
        have := ih hfind
        omega
      · rw [if_neg hp]
        by_cases hq : q m = true
        · rw [if_pos hq]
          simp only [List.map_cons, List.sum_cons]
          exact le_trans (ih hfind) (Nat.le_add_left _ _)
        · rw [if_neg hq]
          exact ih hfind

/-- Marking one more id as visited can only shrink the unvisited edge count. -/
lemma unvisitedSum_mono (nodes : List Node) (id : PackageId) (visited : List PackageId) :
    unvisitedSum nodes (id :: visited) ≤ unvisitedSum nodes visited := by
  unfold unvisitedSum
  refine sum_filter_mono nodes _ _ ?_
  intro n h
  simp at h ⊢
  exact h.2

/-- Visiting the node found for `id` removes at least its own edge count from
the unvisited total. -/
lemma unvisitedSum_insert (nodes : List Node) (id : PackageId) (visited : List PackageId)
    (n : Node) (hfind : nodes.find? (fun x => x.id == id) = some n)
    (hvis : id ∉ visited) :
    n.deps.length + unvisitedSum nodes (id :: visited) ≤ unvisitedSum nodes visited := by
  have hid : n.id = id := by simpa using List.find?_some hfind
  unfold unvisitedSum
  refine sum_filter_find_insert nodes _ _ _ ?_ n hfind ?_ ?_
  · intro x h
    simp at h ⊢
    exact h.2
  · simp [hid, hvis]
  · simp [hid]

/-- With fuel exceeding the loop measure, the traversal never exhausts its
fuel: the embedding of the fact that the `while let` loop of lines 429–433
terminates on every graph, cyclic or not. -/
lemma traverseLoop_ne_spin (fuel : Nat) :
    ∀ (nodes : List Node) (opt : GetDependenciesOpt) (missing : Bool)
      (visited stack : List PackageId),
      stack.length + unvisitedSum nodes visited < fuel →
      traverseLoop nodes opt missing fuel visited stack ≠ LoopRes.spin := by
  induction fuel with
  | zero => intro _ _ _ _ _ h; omega
  | succ f ih =>
    intro nodes opt missing visited stack h
    cases stack with
    | nil => simp [traverseLoop]
    | cons id rest =>
      simp only [traverseLoop]
      by_cases hc : visited.contains id = true
      · rw [if_pos hc]
        apply ih
        simp at h
        omega
      · rw [if_neg hc]
        cases hn : neighbors nodes opt missing id with
        | none => simp
        | some ns =>
          apply ih
          unfold neighbors at hn
          cases hf : nodes.find? (fun x => x.id == id) with
          | none => rw [hf] at hn; cases hn
          | some n =>
            rw [hf] at hn
            have hns : ns = (n.deps.filter (edge_allowed opt missing)).map (fun d => d.pkg) := by
              cases hn; rfl
            have hlen : ns.length ≤ n.deps.length := by
              rw [hns, List.length_map]
              exact List.length_filter_le _ _
            have hins := unvisitedSum_insert nodes id visited n hf (by simpa using hc)
            simp at h ⊢
            omega

/-- The visited list stays duplicate-free: an id is pushed into it only after
the `contains` check fails (the `connected.insert(package_id)` test of line
430 succeeding only for fresh ids). -/
lemma traverseLoop_nodup (fuel : Nat) :
    ∀ (nodes : List Node) (opt : GetDependenciesOpt) (missing : Bool)
      (visited stack : List PackageId) (v : List PackageId),
      visited.Nodup →
      traverseLoop nodes opt missing fuel visited stack = LoopRes.ok v → v.Nodup := by
  induction fuel with
  | zero => intro _ _ _ _ _ _ _ h; cases h
  | succ f ih =>
    intro nodes opt missing visited stack v hnd h
    cases stack with
    | nil =>
      simp only [traverseLoop] at h
      cases h
      exact hnd
    | cons id rest =>
      simp only [traverseLoop] at h
      by_cases hc : visited.contains id = true
      · rw [if_pos hc] at h
        exact ih _ _ _ _ _ _ hnd h
      · rw [if_neg hc] at h
        cases hn : neighbors nodes opt missing id with
        | none => rw [hn] at h; cases h
        | some ns =>
          rw [hn] at h
          exact ih _ _ _ _ _ _ (List.nodup_cons.mpr ⟨by simpa using hc, hnd⟩) h

end CargoLicense

namespace CargoLicense

/-- C7: for every input graph — cyclic or not — and every start stack, the
reachability traversal with the loop-measure fuel bound terminates (it never
exhausts the fuel), and the visited set it returns contains no package
identifier twice. -/
theorem traversal_cycle_safe (nodes : List Node) (opt : GetDependenciesOpt)
    (missing : Bool) (stack : List PackageId) :
    traverseLoop nodes opt missing (traverseFuel nodes stack) [] stack ≠ LoopRes.spin ∧
    ∀ v, traverseLoop nodes opt missing (traverseFuel nodes stack) [] stack = LoopRes.ok v →
      v.Nodup := by
  constructor
  · apply traverseLoop_ne_spin
    unfold traverseFuel
    omega
  · intro v h
    exact traverseLoop_nodup _ _ _ _ _ _ _ List.nodup_nil h

/-- Witness for C7 on a graph with the two-node edge cycle `a ↔ b` reachable
from root `r`: the traversal completes and visits each node once. -/
theorem traversal_cycle_safe_witness :
    traverseLoop
        [⟨"r", [⟨"a", [⟨DependencyKind.normal⟩]⟩]⟩,
          ⟨"a", [⟨"b", [⟨DependencyKind.normal⟩]⟩]⟩,
          ⟨"b", [⟨"a", [⟨DependencyKind.normal⟩]⟩]⟩]
        ⟨false, false, false, false, false⟩ false
        (traverseFuel
          [⟨"r", [⟨"a", [⟨DependencyKind.normal⟩]⟩]⟩,
            ⟨"a", [⟨"b", [⟨DependencyKind.normal⟩]⟩]⟩,
            ⟨"b", [⟨"a", [⟨DependencyKind.normal⟩]⟩]⟩] ["r"]) [] ["r"] ≠ LoopRes.spin ∧
    (["b", "a", "r"] : List PackageId).Nodup :=
  ⟨(traversal_cycle_safe _ _ _ _).1,
    (traversal_cycle_safe
      [⟨"r", [⟨"a", [⟨DependencyKind.normal⟩]⟩]⟩,
        ⟨"a", [⟨"b", [⟨DependencyKind.normal⟩]⟩]⟩,
        ⟨"b", [⟨"a", [⟨DependencyKind.normal⟩]⟩]⟩]
      ⟨false, false, false, false, false⟩ false ["r"]).2 ["b", "a", "r"] (by decide)⟩

end CargoLicense

namespace CargoLicense

/-- With the loop-measure fuel bound, a stack of ids that all have nodes, and
a dependency-closed node set, the traversal always completes with a visited
set (it neither spins nor panics). -/
lemma traverseLoop_ok (fuel : Nat) :
    ∀ (nodes : List Node) (opt : GetDependenciesOpt) (missing : Bool)
      (visited stack : List PackageId),
      stack.length + unvisitedSum nodes visited < fuel →
      (∀ x ∈ stack, ∃ n ∈ nodes, n.id = x) →
      (∀ n ∈ nodes, ∀ d ∈ n.deps, ∃ n2 ∈ nodes, n2.id = d.pkg) →
      ∃ v, traverseLoop nodes opt missing fuel visited stack = LoopRes.ok v := by
  induction fuel with
  | zero => intro _ _ _ _ _ h; omega
  | succ f ih =>
    intro nodes opt missing visited stack h hstack hclosed
    cases stack with
    | nil => exact ⟨visited, rfl⟩
    | cons id rest =>
      simp only [traverseLoop]
      by_cases hc : visited.contains id = true
      · rw [if_pos hc]
        refine ih _ _ _ _ _ ?_ (fun x hx => hstack x (List.mem_cons_of_mem _ hx)) hclosed
        simp at h
        omega
      · rw [if_neg hc]
        obtain ⟨n0, hn0, hid0⟩ := hstack id (List.mem_cons_self _ _)
        have hsome : (nodes.find? (fun x => x.id == id)).isSome := by
          rw [List.find?_isSome]
          exact ⟨n0, hn0, by simp [hid0]⟩
        obtain ⟨n', hf⟩ := Option.isSome_iff_exists.mp hsome
        have hnb : neighbors nodes opt missing id =
            some ((n'.deps.filter (edge_allowed opt missing)).map (fun d => d.pkg)) := by
          unfold neighbors
          rw [hf]
        rw [hnb]
        refine ih _ _ _ _ _ ?_ ?_ hclosed
        · have hlen : (n'.deps.filter (edge_allowed opt missing)).length ≤ n'.deps.length :=
            List.length_filter_le _ _
          have hins := unvisitedSum_insert nodes id visited n' hf (by simpa using hc)
          simp at h ⊢
          omega
        · intro x hx
          rcases List.mem_append.mp hx with hx | hx
          · rw [List.mem_reverse] at hx
            obtain ⟨d, hd, hdx⟩ := List.mem_map.mp hx
            exact hdx ▸ hclosed n' (List.mem_of_find?_eq_some hf) d (List.mem_of_mem_filter hd)
          · exact hstack x (List.mem_cons_of_mem _ hx)

/-- Everything already visited and everything on the stack ends up in the
final visited set. -/
lemma traverseLoop_subset (fuel : Nat) :
    ∀ (nodes : List Node) (opt : GetDependenciesOpt) (missing : Bool)
      (visited stack v : List PackageId),
      traverseLoop nodes opt missing fuel visited stack = LoopRes.ok v →
      ∀ x, x ∈ visited ∨ x ∈ stack → x ∈ v := by
  induction fuel with
  | zero => intro _ _ _ _ _ _ h; cases h
  | succ f ih =>
    intro nodes opt missing visited stack v h x hx
    cases stack with
    | nil =>
      simp only [traverseLoop] at h
      cases h
      simpa using hx
    | cons id rest =>
      simp only [traverseLoop] at h
      by_cases hc : visited.contains id = true
      · rw [if_pos hc] at h
        rcases hx with hx | hx
        · exact ih _ _ _ _ _ _ h x (Or.inl hx)
        · rcases List.mem_cons.mp hx with rfl | hx
          · exact ih _ _ _ _ _ _ h x (Or.inl (by simpa using hc))
          · exact ih _ _ _ _ _ _ h x (Or.inr hx)
      · rw [if_neg hc] at h
        cases hn : neighbors nodes opt missing id with
        | none => rw [hn] at h; cases h
        | some ns =>
          rw [hn] at h
          rcases hx with hx | hx
          · exact ih _ _ _ _ _ _ h x (Or.inl (List.mem_cons_of_mem _ hx))
          · rcases List.mem_cons.mp hx with rfl | hx
            · exact ih _ _ _ _ _ _ h x (Or.inl (List.mem_cons_self _ _))
            · exact ih _ _ _ _ _ _ h x (Or.inr (List.mem_append.mpr (Or.inr hx)))

/-- Filtering a list whose elements have pairwise-distinct names by a
predicate that holds at `p0` and forces the name of any element it accepts
to be `p0.name` yields exactly `[p0]`. -/
lemma filter_eq_singleton_of_pairwise (l : List Package) (pred : Package → Bool)
    (p0 : Package) (hnames : l.Pairwise (fun p q => p.name ≠ q.name))
    (hmem : p0 ∈ l) (hp0 : pred p0 = true)
    (hpred : ∀ q ∈ l, pred q = true → q.name = p0.name) :
    l.filter pred = [p0] := by
  induction l with
  | nil => cases hmem
  | cons a l ih =>
    rw [List.pairwise_cons] at hnames
    rcases List.mem_cons.mp hmem with rfl | hmem'
    · rw [List.filter_cons, if_pos hp0]
      have : l.filter pred = [] := by
        rw [List.filter_eq_nil_iff]
        intro q hq hpq
        exact hnames.1 q hq (hpred q (List.mem_cons_of_mem _ hq) hpq).symm
      rw [this]
    · have hfa : pred a = false := by
        cases hpa : pred a with
        | false => rfl
        | true =>
          exact absurd (hpred a (List.mem_cons_self _ _) hpa)
            (hnames.1 p0 hmem')
      rw [List.filter_cons, if_neg (by simp [hfa])]
      exact ih hnames.2 hmem' (fun q hq hpq => hpred q (List.mem_cons_of_mem _ hq) hpq)

end CargoLicense

namespace CargoLicense

/-- C5 (amended): with `rootOnly = true` the result is the root set only up
to the name-keyed filter — precisely, the traversal still runs, and the
result consists of the connected packages whose *name* matches a root name
minus proc-macro exclusions.  Under the side conditions that make those
filters coincide with the root set (pairwise-distinct package names, no
proc-macro exclusion, a well-formed root/workspace and a dependency-closed
node set), the result is exactly the projected, sorted root set. -/
theorem root_only_exact (packages : List Package) (members : List PackageId)
    (res : Resolve) (opt : GetDependenciesOpt)
    (hroot : opt.root_only = true)
    (hproc : opt.avoid_proc_macros = false)
    (hnames : packages.Pairwise (fun p q => p.name ≠ q.name))
    (hclosed : ∀ n ∈ res.nodes, ∀ d ∈ n.deps, ∃ n2 ∈ res.nodes, n2.id = d.pkg)
    (hrootpkg : match res.root with
      | some r => ∃ p ∈ packages, p.id = r
      | none => members ≠ [] ∧ ∀ w ∈ members, ∃ p ∈ packages, p.id = w)
    (hseeds : match res.root with
      | some r => ∃ n ∈ res.nodes, n.id = r
      | none => ∀ w ∈ members, ∃ n ∈ res.nodes, n.id = w) :
    get_dependencies_from_cargo_lock ⟨packages, members, some res⟩ opt =
      RunRes.ok (sortBy' detailsLtB
        ((roots_list ⟨packages, members, some res⟩).map DependencyDetails.new)) := by
  have hsymm : Symmetric (fun p q : Package => p.name ≠ q.name) :=
    fun _ _ h e => h e.symm
  cases hr : res.root with
  | some r =>
    rw [hr] at hrootpkg hseeds
    obtain ⟨pr, hprmem, hprid⟩ := hrootpkg
    have hpsome : (packages.find? (fun p => p.id == r)).isSome := by
      rw [List.find?_isSome]
      exact ⟨pr, hprmem, by simp [hprid]⟩
    obtain ⟨p0, hp0⟩ := Option.isSome_iff_exists.mp hpsome
    have hp0id : p0.id = r := by simpa using List.find?_some hp0
    have hp0mem : p0 ∈ packages := List.mem_of_find?_eq_some hp0
    have hrootsl : roots_list ⟨packages, members, some res⟩ = [p0] := by
      simp [roots_list, Metadata.root_package, hr, hp0]
    have hfuel : ([r] : List PackageId).length + unvisitedSum res.nodes [] <
        traverseFuel res.nodes [r] := by
      unfold traverseFuel
      omega
    obtain ⟨v, hv⟩ := traverseLoop_ok _ res.nodes opt (missing_dep_kinds res) [] [r] hfuel
      (fun x hx => by
        rw [List.mem_singleton] at hx
        subst hx
        exact hseeds) hclosed
    have hrv : r ∈ v :=
      traverseLoop_subset _ _ _ _ _ _ _ hv r (Or.inr (List.mem_singleton.mpr rfl))
    have hnf : get_node_name_filter ⟨packages, members, some res⟩ opt = [p0.name] := by
      simp [get_node_name_filter, hroot, hrootsl]
    have hpm : get_proc_macro_node_names ⟨packages, members, some res⟩ opt = [] := by
      simp [get_proc_macro_node_names, hproc]
    have hfilter : packages.filter
        (fun p => v.contains p.id &&
          nameFilters ⟨packages, members, some res⟩ opt p) = [p0] := by
      refine filter_eq_singleton_of_pairwise _ _ _ hnames hp0mem ?_ ?_
      · simp [nameFilters, hnf, hpm, hp0id, hrv]
      · intro q hq hpq
        simp [nameFilters, hnf, hpm] at hpq
        exact hpq.2
    simp only [get_dependencies_from_cargo_lock, hr]
    rw [hv]
    simp only [hfilter, hrootsl]
  | none =>
    rw [hr] at hrootpkg hseeds
    obtain ⟨hmem_ne, hw⟩ := hrootpkg
    have hrootsl : roots_list ⟨packages, members, some res⟩ =
        packages.filter (fun p => members.contains p.id) := by
      simp [roots_list, Metadata.root_package, hr, Metadata.workspace_packages]
    have hfuel : members.length + unvisitedSum res.nodes [] <
        traverseFuel res.nodes members := by
      unfold traverseFuel
      omega
    obtain ⟨v, hv⟩ := traverseLoop_ok _ res.nodes opt (missing_dep_kinds res) [] members hfuel
      hseeds hclosed
    have hsubv : ∀ w ∈ members, w ∈ v := fun w hw' =>
      traverseLoop_subset _ _ _ _ _ _ _ hv w (Or.inr hw')
    have hnf : get_node_name_filter ⟨packages, members, some res⟩ opt =
        (packages.filter (fun p => members.contains p.id)).map (fun p => p.name) := by
      simp [get_node_name_filter, hroot, hrootsl]
    have hpm : get_proc_macro_node_names ⟨packages, members, some res⟩ opt = [] := by
      simp [get_proc_macro_node_names, hproc]
    obtain ⟨w0, hw0⟩ := List.exists_mem_of_ne_nil members hmem_ne
    obtain ⟨q0, hq0mem, hq0id⟩ := hw w0 hw0
    have hq0ws : q0 ∈ packages.filter (fun p => members.contains p.id) := by
      rw [List.mem_filter]
      exact ⟨hq0mem, by simp [hq0id, hw0]⟩
    have hempty : ((packages.filter (fun p => members.contains p.id)).map
        (fun p => p.name)).isEmpty = false := by
      cases hl : (packages.filter (fun p => members.contains p.id)).map (fun p => p.name) with
      | nil =>
        rw [List.map_eq_nil_iff] at hl
        rw [hl] at hq0ws
        cases hq0ws
      | cons a l => rfl
    have hfilter : packages.filter
        (fun p => v.contains p.id && nameFilters ⟨packages, members, some res⟩ opt p) =
        packages.filter (fun p => members.contains p.id) := by
      refine List.filter_congr ?_
      intro p hp
      by_cases hm : members.contains p.id = true
      · have hpws : p ∈ packages.filter (fun p => members.contains p.id) :=
          List.mem_filter.mpr ⟨hp, hm⟩
        have hpv : p.id ∈ v := hsubv p.id (by simpa using hm)
        have hname : p.name ∈ (packages.filter (fun p => members.contains p.id)).map
            (fun p => p.name) := List.mem_map.mpr ⟨p, hpws, rfl⟩
        unfold nameFilters
        rw [hnf, hpm, hm]
        have h1 : v.contains p.id = true := by simpa using hpv
        have h2 : ((packages.filter (fun p => members.contains p.id)).map
            (fun p => p.name)).contains p.name = true := by simpa using hname
        rw [h1, h2]
        simp
      · have hnoname : p.name ∉ (packages.filter (fun p => members.contains p.id)).map
            (fun p => p.name) := by
          intro hmm
          obtain ⟨q, hqf, hqn⟩ := List.mem_map.mp hmm
          have hqp : q = p := by
            by_contra hne
            exact List.Pairwise.forall hsymm hnames
              (List.mem_of_mem_filter hqf) hp hne hqn
          subst hqp
          exact hm (List.mem_filter.mp hqf).2
        unfold nameFilters
        rw [hnf, hpm]
        have h2 : ((packages.filter (fun p => members.contains p.id)).map
            (fun p => p.name)).contains p.name = false := by
          cases hcc : ((packages.filter (fun p => members.contains p.id)).map
              (fun p => p.name)).contains p.name with
          | false => rfl
          | true => exact absurd (by simpa using hcc) hnoname
        rw [h2, hempty, Bool.eq_false_iff.mpr hm]
        simp
    simp only [get_dependencies_from_cargo_lock, hr]
    rw [hv]
    simp only [hfilter, hrootsl]

end CargoLicense

namespace CargoLicense

/-- C5 counterexample: with `rootOnly = true` (and no other flag), on a graph
whose root `foo 1` (named `foo`) depends on a second version `foo 2` of the
same crate name, the result contains *both* packages — the allow-list is
keyed by name and the traversal is not skipped — so it is not the root set. -/
theorem root_only_not_exact_cex :
    get_dependencies_from_cargo_lock
        ⟨[⟨"foo 1", "foo", ⟨1, 0, 0⟩, [], none, none, none, none, [], []⟩,
          ⟨"foo 2", "foo", ⟨2, 0, 0⟩, [], none, none, none, none, [], []⟩],
          ["foo 1"],
          some ⟨[⟨"foo 1", [⟨"foo 2", [⟨DependencyKind.normal⟩]⟩]⟩, ⟨"foo 2", []⟩],
            some "foo 1"⟩⟩
        ⟨false, false, false, false, true⟩ ≠
      RunRes.ok (sortBy' detailsLtB
        ((roots_list
          ⟨[⟨"foo 1", "foo", ⟨1, 0, 0⟩, [], none, none, none, none, [], []⟩,
            ⟨"foo 2", "foo", ⟨2, 0, 0⟩, [], none, none, none, none, [], []⟩],
            ["foo 1"],
            some ⟨[⟨"foo 1", [⟨"foo 2", [⟨DependencyKind.normal⟩]⟩]⟩, ⟨"foo 2", []⟩],
              some "foo 1"⟩⟩).map DependencyDetails.new)) := by
  decide

/-- Witness for C5 (amended) on a single-package workspace with a designated
root and a dependency-free resolve graph. -/
theorem root_only_exact_witness :
    get_dependencies_from_cargo_lock
        ⟨[⟨"r 1", "root", ⟨1, 0, 0⟩, [], none, none, none, none, [], []⟩], ["r 1"],
          some ⟨[⟨"r 1", []⟩], some "r 1"⟩⟩
        ⟨false, false, false, false, true⟩ =
      RunRes.ok (sortBy' detailsLtB
        ((roots_list
          ⟨[⟨"r 1", "root", ⟨1, 0, 0⟩, [], none, none, none, none, [], []⟩], ["r 1"],
            some ⟨[⟨"r 1", []⟩], some "r 1"⟩⟩).map DependencyDetails.new)) :=
  root_only_exact _ _ _ _ rfl rfl (by decide) (by decide) (by decide) (by decide)

end CargoLicense
